import Mathlib

/-!
# Verification of the plainsong parser (`plainsong.py`)

This file shallowly embeds the line-by-line song parser of `plainsong.py`:
the data model (`Song`, `SongPart`, `SongLine`, `SongChord`), the chord
grammar recognizer (`CHORD_REGEX` as a set-of-suffixes matcher), the chord
tokenizer (`parse_chords`), the helper regexes for metadata and part names,
the state machine (`parse_line` over `ParserState`), and the LaTeX line
renderer (`SongLine.to_latex`).  Python strings are modelled as `String` /
`List Char`; the regex helpers are translated into the exact acceptance and
group semantics of the Python backtracking engine on newline-free lines
(the parser strips line terminators before `parse_line`).
-/

namespace Plainsong

/-- Whitespace characters recognised by the Python `str.strip` and `\s`
(ASCII range, which covers all inputs the parser sees). -/
def pyIsSpace (c : Char) : Bool :=
  c = ' ' || c = '\t' || c = '\n' || c = '\r' || c = '\x0b' || c = '\x0c'

/-- Python `str.strip()`: remove leading and trailing whitespace. -/
def pyStrip (s : String) : String :=
  String.mk (((s.data.dropWhile pyIsSpace).reverse.dropWhile pyIsSpace).reverse)

/-- Python `line[:-1]`: drop the final character (empty string unchanged). -/
def pyDropLast (s : String) : String :=
  String.mk s.data.dropLast

/-- Python `line.split(' ')`: split on every single space, keeping empty
tokens between consecutive spaces. -/
def pySplitSpace : List Char → List (List Char)
  | [] => [[]]
  | c :: rest =>
    match pySplitSpace rest with
    | [] => if c = ' ' then [[], []] else [[c]]
    | w :: ws => if c = ' ' then [] :: w :: ws else (c :: w) :: ws

/-! ## Data model -/

/-- `SongChord`: a chord symbol and its column position. -/
structure SongChord where
  name : String
  pos : Nat
  deriving DecidableEq, Repr

/-- `SongLine`: a lyric text with the chords positioned over it. -/
structure SongLine where
  text : String
  chords : List SongChord
  deriving DecidableEq, Repr

/-- `SongPart`: a named block of song lines. -/
structure SongPart where
  name : String
  lines : List SongLine
  deriving DecidableEq, Repr

/-- `SongPart.is_empty`: true iff the name is empty and there are no lines. -/
def SongPart.is_empty (p : SongPart) : Bool :=
  if p.name ≠ "" then false
  else if p.lines ≠ [] then false
  else true

/-- `Song`: title, metadata dictionary (insertion-ordered, as a Python
`dict`), and the ordered parts. -/
structure Song where
  title : String
  metadata : List (String × String)
  parts : List SongPart
  deriving DecidableEq, Repr

/-- Python `dict` assignment `d[k] = v`: replace in place if the key is
present, otherwise append. -/
def dictInsert (m : List (String × String)) (k v : String) :
    List (String × String) :=
  if m.any (fun p => p.1 = k) then
    m.map (fun p => if p.1 = k then (k, v) else p)
  else m ++ [(k, v)]

/-! ## Chord grammar recognizer (`CHORD_REGEX`)

The Python regex is
`^(C|D|E|F|G|A|B)(b|#)?(m|M|min|maj|dim|Δ|°|ø|Ø)?((sus|add)?(b|#)?(2|4|5|6|7|9|10|11|13)?)*(\+|aug|alt)?(\/(C|D|E|F|G|A|B)(b|#)?)?$`,
matched anchored at both ends on a single token (no newline).  We model
acceptance exactly by simulating the pattern as a set of possible remaining
suffixes of the token (the backtracking engine accepts iff some path
consumes the whole token). -/

/-- The suffixes obtained by consuming one literal from `alts` (mandatory). -/
def consumeAlts (alts : List (List Char)) (s : List Char) : List (List Char) :=
  alts.filterMap (fun a => if s.take a.length = a then some (s.drop a.length) else none)

/-- The suffixes obtained by consuming one literal from `alts` or nothing
(an optional group `(a|b|...)?`). -/
def consumeOpt (alts : List (List Char)) (s : List Char) : List (List Char) :=
  s :: consumeAlts alts s

def chordRoots : List (List Char) :=
  [['C'], ['D'], ['E'], ['F'], ['G'], ['A'], ['B']]

def chordAccidentals : List (List Char) := [['b'], ['#']]

def chordQualities : List (List Char) :=
  [['m'], ['M'], ['m', 'i', 'n'], ['m', 'a', 'j'], ['d', 'i', 'm'],
   ['Δ'], ['°'], ['ø'], ['Ø']]

def chordSusAdd : List (List Char) :=
  [['s', 'u', 's'], ['a', 'd', 'd']]

def chordIntervals : List (List Char) :=
  [['2'], ['4'], ['5'], ['6'], ['7'], ['9'],
   ['1', '0'], ['1', '1'], ['1', '3']]

def chordSuffixes : List (List Char) :=
  [['+'], ['a', 'u', 'g'], ['a', 'l', 't']]

/-- One iteration of the starred extension group
`(sus|add)?(b|#)?(2|4|5|6|7|9|10|11|13)?`: all suffixes reachable by one
pass through the three optional pieces. -/
def extGroupStep (s : List Char) : List (List Char) :=
  (((consumeOpt chordSusAdd s).flatMap (consumeOpt chordAccidentals)).flatMap
    (consumeOpt chordIntervals)).dedup

/-- Closure of `extGroupStep` under repetition (the `*`), computed with
fuel; every productive iteration strictly shortens a suffix, so fuel equal
to the token length reaches the fixpoint. -/
def starExt : Nat → List (List Char) → List (List Char)
  | 0, acc => acc
  | n + 1, acc =>
    let next := ((acc.flatMap extGroupStep).dedup).filter (fun r => ¬ r ∈ acc)
    if next = [] then acc else starExt n (acc ++ next)

/-- The optional slash-bass `(\/(C|D|E|F|G|A|B)(b|#)?)?`. -/
def slashPart (s : List Char) : List (List Char) :=
  s :: ((consumeAlts [['/']] s).flatMap (consumeAlts chordRoots)).flatMap
    (consumeOpt chordAccidentals)

/-- Acceptance of `CHORD_REGEX` on a whole token (anchored both ends). -/
def chordMatchL (s : List Char) : Bool :=
  let r1 := consumeAlts chordRoots s
  let r2 := (r1.flatMap (consumeOpt chordAccidentals)).dedup
  let r3 := (r2.flatMap (consumeOpt chordQualities)).dedup
  let r4 := starExt (s.length + 1) r3
  let r5 := (r4.flatMap (consumeOpt chordSuffixes)).dedup
  let r6 := (r5.flatMap slashPart).dedup
  r6.any (fun r => r = [])

/-- `re.match(CHORD_REGEX, word)` as a Boolean predicate on a token. -/
def chordMatch (s : String) : Bool := chordMatchL s.data

/-- `SongParser.is_chord_line`: every non-empty space-separated word of the
line matches the chord regex. -/
def is_chord_line (line : String) : Bool :=
  (pySplitSpace line.data).all (fun w => if w = [] then true else chordMatchL w)

/-! ## Chord tokenizer (`SongParser.parse_chords`) -/

/-- The character loop of `parse_chords`: `pos` is the index of the next
character, `start` the start index of the chord being accumulated in
`chord`, and `chords` the chords emitted so far. -/
def parseChordsAux : List Char → Nat → Nat → List Char → List SongChord →
    List SongChord
  | [], _, start, chord, chords =>
    if chord ≠ [] then chords ++ [⟨String.mk chord, start⟩] else chords
  | c :: rest, pos, start, chord, chords =>
    if c = ' ' then
      if chord ≠ [] then
        parseChordsAux rest (pos + 1) start [] (chords ++ [⟨String.mk chord, start⟩])
      else
        parseChordsAux rest (pos + 1) start [] chords
    else
      if chord = [] then
        parseChordsAux rest (pos + 1) pos [c] chords
      else
        parseChordsAux rest (pos + 1) start (chord ++ [c]) chords

/-- `SongParser.parse_chords`: split a line into chords with the column
offset of each non-space run. -/
def parse_chords (line : String) : List SongChord :=
  parseChordsAux line.data 0 0 [] []

/-! ## The helper regexes of the parser

`parse_metadata` searches for the pattern `^\s*(.*): (.*)\s*$`.  On a
newline-free line the match succeeds iff the line contains `": "`; the
greedy first group makes the split happen at the **last** occurrence of
`": "`, after the maximal leading-whitespace run (which can contain no
colon).  `parse_part` searches for the pattern `^\s*(.*):$`, which succeeds
iff the line ends with `':'`, capturing everything between the maximal
leading-whitespace run and that final colon. -/

/-- Split a character list at the **last** occurrence of `": "`:
`splitLastCS l = some (a, b)` iff `l = a ++ ':' :: ' ' :: b` with no
further `": "` inside `b`. -/
def splitLastCS : List Char → Option (List Char × List Char)
  | [] => none
  | c :: rest =>
    match splitLastCS rest with
    | some (a, b) => some (c :: a, b)
    | none =>
      if c = ':' ∧ rest.head? = some ' ' then some (([] : List Char), rest.tail)
      else none

/-- Whether `": "` occurs somewhere in a character list. -/
def containsCS : List Char → Bool
  | [] => false
  | c :: rest => (c = ':' && rest.head? = some ' ') || containsCS rest

/-- The key/value pair extracted by `SongParser.parse_metadata`, when the
line matches `^\s*(.*): (.*)\s*$`. -/
def parse_metadata (line : String) : Option (String × String) :=
  (splitLastCS (line.data.dropWhile pyIsSpace)).map
    (fun p => (String.mk p.1, String.mk p.2))

/-- The part name captured by `^\s*(.*):$` in `SongParser.parse_part`, when
the line matches. -/
def partName (line : String) : Option String :=
  let l := line.data.dropWhile pyIsSpace
  if l.getLast? = some ':' then some (String.mk l.dropLast) else none

/-! ## The state machine (`SongParser`) -/

/-- The parser states (`SongParser.State`). -/
inductive PState : Type
  | START : PState
  | DEFINITION : PState
  | BODY : PState
  deriving DecidableEq, Repr

/-- The mutable fields of a `SongParser` instance. -/
structure ParserState where
  song : Option Song
  state : PState
  last_chords : List SongChord
  part : SongPart
  deriving DecidableEq, Repr

/-- `SongParser.__init__`. -/
def initState : ParserState :=
  { song := none, state := .START, last_chords := [], part := ⟨"", []⟩ }

/-- `SongParser.parse_part` (called on a non-blank line in BODY, and on the
line that leaves DEFINITION): returns the updated current part and pending
chord buffer. -/
def parse_part (part : SongPart) (last_chords : List SongChord)
    (line : String) : SongPart × List SongChord :=
  match (if part.is_empty then partName line else none) with
  | some nm => ({ part with name := nm }, last_chords)
  | none =>
    if is_chord_line line then
      let chords := parse_chords line
      if last_chords ≠ [] then
        ({ part with lines := part.lines ++ [⟨"", last_chords⟩] }, chords)
      else
        (part, chords)
    else
      ({ part with lines := part.lines ++ [⟨line, last_chords⟩] }, [])

/-- `SongParser.parse_line`: one step of the state machine. -/
def parse_line (s : ParserState) (line : String) : ParserState :=
  let stripped := pyStrip line
  match s.state with
  | .START =>
    if stripped = "" then s
    else { s with song := some ⟨stripped, [], []⟩, state := .DEFINITION }
  | .DEFINITION =>
    if stripped = "" then s
    else
      match s.song with
      | none => s
      | some sg =>
        match parse_metadata line with
        | some kv =>
          { s with song := some ({ sg with
              metadata := dictInsert sg.metadata kv.1 kv.2 }) }
        | none =>
          let pl := parse_part s.part s.last_chords line
          { s with state := .BODY, part := pl.1, last_chords := pl.2 }
  | .BODY =>
    if stripped = "" then
      if s.part.is_empty then s
      else
        match s.song with
        | none => s
        | some sg =>
          let flushed : SongPart :=
            if s.last_chords ≠ [] then
              { s.part with lines := s.part.lines ++ [⟨"", s.last_chords⟩] }
            else s.part
          let sg' : Song := { sg with parts := sg.parts ++ [flushed] }
          { s with song := some sg', last_chords := [], part := ⟨"", []⟩ }
    else
      let pl := parse_part s.part s.last_chords line
      { s with part := pl.1, last_chords := pl.2 }

/-- Feed a list of lines (already terminator-stripped) to `parse_line` from
a given state. -/
def runFrom (s : ParserState) (lines : List String) : ParserState :=
  lines.foldl parse_line s

/-- Feed a list of lines to a fresh parser. -/
def runLines (lines : List String) : ParserState :=
  runFrom initState lines

/-- `SongParser.parse`: iterate over the raw lines of the stream, dropping
the last character of each (`line[:-1]`), then feed one final empty line. -/
def parse (rawLines : List String) : ParserState :=
  runLines (rawLines.map pyDropLast ++ [""])

/-! ## LaTeX rendering of a line (`SongLine.to_latex`) -/

/-- Stable insertion into a list sorted by descending `pos` (a later
element with equal `pos` stays after earlier ones, as the stable Python
`list.sort(key=..., reverse=True)`). -/
def sortDescInsert (c : SongChord) : List SongChord → List SongChord
  | [] => [c]
  | d :: ds => if d.pos ≥ c.pos then d :: sortDescInsert c ds else c :: d :: ds

/-- `chords.sort(key=lambda chord: chord.pos, reverse=True)` on a copy of
the chord list. -/
def sortDescChords (cs : List SongChord) : List SongChord :=
  cs.foldl (fun acc c => sortDescInsert c acc) []

/-- The marker `\[name]` spliced into the lyric text. -/
def chordMarker (c : SongChord) : List Char :=
  '\\' :: '[' :: (c.name.data ++ [']'])

/-- Marker splicing: the slice of `out` up to the chord position, then the
marker, then the rest (Python slices clamp out-of-range indices, as
`take`/`drop` do). -/
def pyInsertAt (out : List Char) (c : SongChord) : List Char :=
  out.take c.pos ++ chordMarker c ++ out.drop c.pos

/-- `SongLine.to_latex`: no chords renders the text plus a newline;
otherwise sort the chords by descending position, pad the text with spaces
up to the rightmost chord position if needed, splice every marker in, and
wrap in `\nolyrics{...}` when the lyric text is empty. -/
def SongLine.to_latex (l : SongLine) : String :=
  match sortDescChords l.chords with
  | [] => l.text ++ "\n"
  | c :: cs =>
    let padded := l.text.data ++ List.replicate (c.pos - l.text.data.length) ' '
    let out := List.foldl pyInsertAt padded (c :: cs)
    if l.text = "" then "\\nolyrics\x7b" ++ String.mk out ++ "\x7d\n"
    else String.mk out ++ "\n"

/-- Characterization of marker splicing used to state C8: processing a
descending chord list inserts each marker at the position of its chord in the
original padded text — the part of the text left of the current (rightmost)
position receives the remaining markers, and the suffix from that position
is never touched again. -/
def overlayDesc (l : List Char) : List SongChord → List Char
  | [] => l
  | c :: cs => overlayDesc (l.take c.pos) cs ++ chordMarker c ++ l.drop c.pos

/-! ## Theorems for the claims -/

/-- C2 (counterexample): the Chord Grammar Recognizer accepts the token
`C##`, contrary to the claim that it returns false on it: the starred
extension group `(sus|add)?(b|#)?(2|...)?` can consume a bare accidental,
so `C##` parses as root `C`, accidental `#`, and one extension group `#`. -/
theorem C2_counterexample : chordMatch "C##" = true := by decide

/-- C2 (amended): anchored on a whole token, the recognizer returns true
for `C`, `Am`, `G#sus4`, `D/F#`, `Bbmaj7`, `Eaug` — and also for `C##`,
whose second `#` is consumed by an extension group — and returns false for
`H`, `Cx` and `123`. -/
theorem C2_claim :
    chordMatch "C" = true ∧ chordMatch "Am" = true ∧
    chordMatch "G#sus4" = true ∧ chordMatch "D/F#" = true ∧
    chordMatch "Bbmaj7" = true ∧ chordMatch "Eaug" = true ∧
    chordMatch "C##" = true ∧
    chordMatch "H" = false ∧ chordMatch "Cx" = false ∧
    chordMatch "123" = false := by decide

/-- C1 (counterexample): after the input `Title`, blank, `Verse 1:`, blank,
the committed part `⟨"Verse 1", []⟩` has a non-empty name and **no**
lines, yet it is in `Song.parts`: the commit guard is `not is_empty()`,
which is satisfied by a name alone. -/
theorem C1_counterexample :
    (runLines ["Title", "", "Verse 1:", ""]).song =
      some ⟨"Title", [], [⟨"Verse 1", []⟩]⟩ ∧
    ("Verse 1" : String) ≠ "" := by decide

/-- C3 (counterexample): in DEFINITION, the line `"a: b: c"` is recorded as
`metadata["a: b"] = "c"` — the greedy first group of
`^\s*(.*): (.*)\s*$` splits at the **last** `": "`, not at the first one as
the claim states (which would give `metadata["a"] = "b: c"`). -/
theorem C3_counterexample :
    (runLines ["T", "a: b: c"]).song = some ⟨"T", [("a: b", "c")], []⟩ ∧
    (("a: b", "c") : String × String) ≠ ("a", "b: c") := by decide

/-- C4 (code bug): `parse` strips the last character of every line it
receives (`line[:-1]`), so a final line `"Hello"` with no trailing newline
loses its last character and reaches `parse_line` as `"Hell"`. -/
theorem C4_claim :
    pyDropLast "Hello" = "Hell" ∧
    (parse ["Title\n", "Hello"]).song =
      some ⟨"Title", [], [⟨"", [⟨"Hell", []⟩]⟩]⟩ := by decide

/-- C5 (counterexample): with an empty current part, the line `"Chorus: "`
(trailing space after the colon) is **not** taken as a part name — the
pattern `^\s*(.*):$` of the code requires the colon to be the final character —
and the line is appended as a lyric line instead. -/
theorem C5_counterexample :
    parse_part ⟨"", []⟩ [] "Chorus: " =
      (⟨"", [⟨"Chorus: ", []⟩]⟩, []) ∧
    (SongPart.mk "" [⟨"Chorus: ", []⟩]).name ≠ "Chorus" := by decide

/-! ### Helper lemmas -/

/-- A blank line in the START state leaves a fresh parser unchanged. -/
theorem parse_line_init_blank (l : String) (hl : pyStrip l = "") :
    parse_line initState l = initState := by
  simp [parse_line, initState, hl]

/-- Feeding only blank lines to a fresh parser leaves it in its initial
state. -/
theorem runFrom_init_blank (lines : List String)
    (h : ∀ l ∈ lines, pyStrip l = "") : runFrom initState lines = initState := by
  induction lines with
  | nil => rfl
  | cons l ls ih =>
    have hstep : parse_line initState l = initState :=
      parse_line_init_blank l (h l (by simp))
    show runFrom (parse_line initState l) ls = initState
    rw [hstep]
    exact ih (fun x hx => h x (by simp [hx]))

/-- C9: if every line of the input sequence (including the final flush
line) is blank, no `Song` is ever constructed: the `song` field is
still `None` and the state is still START after the whole run. -/
theorem C9_claim (lines : List String) (h : ∀ l ∈ lines, pyStrip l = "") :
    (runLines lines).song = none ∧ (runLines lines).state = .START := by
  unfold runLines
  rw [runFrom_init_blank lines h]
  exact ⟨rfl, rfl⟩

/-- Witness for C9 at the concrete all-blank input `["", "   ", ""]`. -/
theorem C9_witness :
    (runLines ["", "   ", ""]).song = none ∧
    (runLines ["", "   ", ""]).state = .START :=
  C9_claim ["", "   ", ""] (by decide)

/-- C1 (amended): at a part boundary in BODY (a blank line), the current
part is committed **iff it is non-empty** — i.e. iff it has a non-empty
name **or** at least one line.  In particular a part with only a name and
no lines is appended to `Song.parts`; pending chords are flushed as a
trailing chord-only line first, and the current part and chord buffer are
reset. -/
theorem C1_claim (sg : Song) (lc : List SongChord) (part : SongPart)
    (line : String) (hblank : pyStrip line = "") :
    (part.is_empty = true →
      parse_line ⟨some sg, .BODY, lc, part⟩ line = ⟨some sg, .BODY, lc, part⟩) ∧
    (part.is_empty = false →
      parse_line ⟨some sg, .BODY, lc, part⟩ line =
        ⟨some ({ sg with parts := sg.parts ++
            [if lc ≠ [] then { part with lines := part.lines ++ [⟨"", lc⟩] }
             else part] }),
         .BODY, [], ⟨"", []⟩⟩) := by
  constructor
  · intro he
    simp [parse_line, hblank, he]
  · intro he
    simp [parse_line, hblank, he]

/-- Witness for C1 at a BODY state whose current part has the name `"N"`
and no lines: the blank line commits `⟨"N", []⟩` to `Song.parts`. -/
theorem C1_witness :
    parse_line ⟨some ⟨"T", [], []⟩, .BODY, [], ⟨"N", []⟩⟩ "" =
      ⟨some ⟨"T", [], [⟨"N", []⟩]⟩, .BODY, [], ⟨"", []⟩⟩ :=
  (C1_claim ⟨"T", [], []⟩ [] ⟨"N", []⟩ "" (by decide)).2 (by decide)

/-- One `parse_line` step in BODY keeps the state in BODY and only ever
appends to `Song.parts`; when it does append, the current part and chord
buffer are reset to fresh empty values. -/
theorem parse_line_body_step (sg : Song) (lc : List SongChord)
    (part : SongPart) (line : String) :
    (parse_line ⟨some sg, .BODY, lc, part⟩ line).state = .BODY ∧
    ∃ sg' tail, (parse_line ⟨some sg, .BODY, lc, part⟩ line).song = some sg' ∧
      sg'.parts = sg.parts ++ tail ∧
      (tail ≠ [] →
        (parse_line ⟨some sg, .BODY, lc, part⟩ line).part = (⟨"", []⟩ : SongPart) ∧
        (parse_line ⟨some sg, .BODY, lc, part⟩ line).last_chords = []) := by
  by_cases hblank : pyStrip line = ""
  · cases he : part.is_empty
    · refine ⟨by simp [parse_line, hblank, he], ?_⟩
      refine ⟨{ sg with parts := sg.parts ++
          [if lc ≠ [] then { part with lines := part.lines ++ [⟨"", lc⟩] }
           else part] },
        [if lc ≠ [] then { part with lines := part.lines ++ [⟨"", lc⟩] }
         else part], ?_, rfl, ?_⟩
      · simp [parse_line, hblank, he]
      · intro _
        constructor <;> simp [parse_line, hblank, he]
    · refine ⟨by simp [parse_line, hblank, he], sg, [], ?_, by simp, ?_⟩
      · simp [parse_line, hblank, he]
      · intro h; exact absurd rfl h
  · refine ⟨by simp [parse_line, hblank], sg, [], ?_, by simp, ?_⟩
    · simp [parse_line, hblank]
    · intro h; exact absurd rfl h

/-- Folding any line sequence from a BODY state only ever appends to
`Song.parts`: every already-committed part survives unchanged, in place. -/
theorem runFrom_body_parts (lines : List String) :
    ∀ (sg : Song) (lc : List SongChord) (part : SongPart),
      ∃ sg' tail, (runFrom ⟨some sg, .BODY, lc, part⟩ lines).song = some sg' ∧
        sg'.parts = sg.parts ++ tail := by
  induction lines with
  | nil => exact fun sg lc part => ⟨sg, [], rfl, by simp⟩
  | cons l ls ih =>
    intro sg lc part
    obtain ⟨hstate, sg₁, t₁, hsong, hparts, -⟩ :=
      parse_line_body_step sg lc part l
    have hrw : runFrom ⟨some sg, .BODY, lc, part⟩ (l :: ls) =
        runFrom (parse_line ⟨some sg, .BODY, lc, part⟩ l) ls := rfl
    have heta : parse_line ⟨some sg, .BODY, lc, part⟩ l =
        ⟨some sg₁, .BODY,
         (parse_line ⟨some sg, .BODY, lc, part⟩ l).last_chords,
         (parse_line ⟨some sg, .BODY, lc, part⟩ l).part⟩ := by
      cases hps : parse_line ⟨some sg, .BODY, lc, part⟩ l
      rw [hps] at hsong hstate
      simp at hsong hstate
      simp [hps, hsong, hstate]
    obtain ⟨sg₂, t₂, hsong₂, hparts₂⟩ :=
      ih sg₁ (parse_line ⟨some sg, .BODY, lc, part⟩ l).last_chords
        (parse_line ⟨some sg, .BODY, lc, part⟩ l).part
    refine ⟨sg₂, t₁ ++ t₂, ?_, ?_⟩
    · rw [hrw, heta]; exact hsong₂
    · rw [hparts₂, hparts, List.append_assoc]

/-- C10: in BODY (the only state that commits parts), a `parse_line` step
never modifies an already-committed part: the parts list is only ever
extended at the end, and whenever a part is committed the current
part is replaced by a fresh empty `SongPart` and the chord buffer is
cleared, so later mutations target only the new part.  Consequently, over
any further line sequence, the committed parts persist unchanged as a
prefix of the final `Song.parts`. -/
theorem C10_claim :
    (∀ (sg : Song) (lc : List SongChord) (part : SongPart) (line : String),
      (parse_line ⟨some sg, .BODY, lc, part⟩ line).state = .BODY ∧
      ∃ sg' tail, (parse_line ⟨some sg, .BODY, lc, part⟩ line).song = some sg' ∧
        sg'.parts = sg.parts ++ tail ∧
        (tail ≠ [] →
          (parse_line ⟨some sg, .BODY, lc, part⟩ line).part = (⟨"", []⟩ : SongPart) ∧
          (parse_line ⟨some sg, .BODY, lc, part⟩ line).last_chords = [])) ∧
    (∀ (sg : Song) (lc : List SongChord) (part : SongPart) (lines : List String),
      ∃ sg' tail, (runFrom ⟨some sg, .BODY, lc, part⟩ lines).song = some sg' ∧
        sg'.parts = sg.parts ++ tail) :=
  ⟨parse_line_body_step, fun sg lc part lines => runFrom_body_parts lines sg lc part⟩

/-- Witness for C10: running the lines `["", "Hello", ""]` from a concrete
BODY state extends the parts list of `⟨"T", [], [⟨"P", []⟩]⟩` only at the
end. -/
theorem C10_witness :
    ∃ sg' tail,
      (runFrom ⟨some ⟨"T", [], [⟨"P", []⟩]⟩, .BODY, [], ⟨"N", []⟩⟩
        ["", "Hello", ""]).song = some sg' ∧
      sg'.parts = (Song.mk "T" [] [⟨"P", []⟩]).parts ++ tail :=
  C10_claim.2 ⟨"T", [], [⟨"P", []⟩]⟩ [] ⟨"N", []⟩ ["", "Hello", ""]

/-- C6: feeding the chord line `"C G"`, then the chord line `"Am F"`, then
the lyric `"Hello"` in BODY yields exactly a chord-only `SongLine` with
text `""` carrying `C`/`G`, followed by a `SongLine` pairing `"Hello"`
with `Am`/`F`; in general, a chord line arriving while a chord buffer is
pending flushes the old buffer as a chord-only line and makes the new
chords the pending buffer. -/
theorem C6_claim :
    (runLines ["T", "", "C G", "Am F", "Hello", ""]).song =
      some ⟨"T", [],
        [⟨"", [⟨"", [⟨"C", 0⟩, ⟨"G", 2⟩]⟩,
               ⟨"Hello", [⟨"Am", 0⟩, ⟨"F", 3⟩]⟩]⟩]⟩ ∧
    ∀ (part : SongPart) (lc : List SongChord) (line : String),
      lc ≠ [] → is_chord_line line = true →
      (if part.is_empty then partName line else none) = none →
      parse_part part lc line =
        ({ part with lines := part.lines ++ [⟨"", lc⟩] }, parse_chords line) := by
  refine ⟨by decide, ?_⟩
  intro part lc line hlc hchord hguard
  simp [parse_part, hguard, hchord, hlc]

/-- Witness for C6: a chord line `"G"` arriving while `[⟨"C", 0⟩]` is
pending flushes the buffer as a chord-only line. -/
theorem C6_witness :
    parse_part ⟨"x", []⟩ [⟨"C", 0⟩] "G" =
      (⟨"x", [⟨"", [⟨"C", 0⟩]⟩]⟩, [⟨"G", 0⟩]) :=
  C6_claim.2 ⟨"x", []⟩ [⟨"C", 0⟩] "G" (by decide) (by decide) (by decide)

/-- If no split is found, the list contains no `": "`. -/
theorem splitLastCS_none (l : List Char) (h : splitLastCS l = none) :
    containsCS l = false := by
  induction l with
  | nil => rfl
  | cons c rest ih =>
    unfold splitLastCS at h
    cases hr : splitLastCS rest with
    | some p => rw [hr] at h; simp at h
    | none =>
      rw [hr] at h
      unfold containsCS
      rw [ih hr, Bool.or_false]
      by_cases hc : c = ':'
      · subst hc
        cases rest with
        | nil => simp
        | cons r rs =>
          by_cases hr2 : r = ' '
          · subst hr2; simp at h
          · simp [hr2]
      · simp [hc]

/-- A successful split decomposes the list at the last `": "`: the value
part contains no further `": "`. -/
theorem splitLastCS_some (l : List Char) :
    ∀ (a b : List Char), splitLastCS l = some (a, b) →
      l = a ++ ':' :: ' ' :: b ∧ containsCS b = false := by
  induction l with
  | nil => intro a b h; simp [splitLastCS] at h
  | cons c rest ih =>
    intro a b h
    unfold splitLastCS at h
    cases hr : splitLastCS rest with
    | some p =>
      rw [hr] at h
      obtain ⟨p1, p2⟩ := p
      simp at h
      obtain ⟨ha, hb⟩ := h
      obtain ⟨he, hc⟩ := ih p1 p2 hr
      subst ha hb
      exact ⟨by rw [he]; rfl, hc⟩
    | none =>
      rw [hr] at h
      have hcs := splitLastCS_none rest hr
      by_cases hc : c = ':'
      · subst hc
        cases rest with
        | nil => simp at h
        | cons r rs =>
          by_cases hr2 : r = ' '
          · subst hr2
            simp at h
            obtain ⟨ha, hb⟩ := h
            subst ha hb
            refine ⟨rfl, ?_⟩
            unfold containsCS at hcs
            exact (Bool.or_eq_false_iff.1 hcs).2
          · simp [hr2] at h
      · simp [hc] at h

/-- A string whose `pyStrip` is empty is all whitespace, so dropping its
leading whitespace leaves nothing. -/
theorem pyStrip_empty_dropWhile (s : String) (h : pyStrip s = "") :
    s.data.dropWhile pyIsSpace = [] := by
  have h0 : ((s.data.dropWhile pyIsSpace).reverse.dropWhile pyIsSpace).reverse =
      ([] : List Char) := congrArg String.data h
  rw [List.reverse_eq_nil_iff, List.dropWhile_eq_nil_iff] at h0
  refine List.dropWhile_eq_nil_iff.2 ?_
  intro x hx
  rw [← List.takeWhile_append_dropWhile (p := pyIsSpace) (l := s.data)] at hx
  rcases List.mem_append.1 hx with h' | h'
  · exact List.mem_takeWhile_imp h'
  · exact h0 x (List.mem_reverse.2 h')

/-- C3 (amended): in DEFINITION, a line matching `^\s*(.*): (.*)\s*$`
records `metadata[key] = value` and stays in DEFINITION, where the
greedy first group makes `key` the text between the leading-whitespace run
and the **last** `": "` of the line, and `value` everything after that
delimiter to the end of the line (so the value contains no `": "`). -/
theorem C3_claim (sg : Song) (lc : List SongChord) (part : SongPart)
    (line : String) (k v : String)
    (h : parse_metadata line = some (k, v)) :
    parse_line ⟨some sg, .DEFINITION, lc, part⟩ line =
      ⟨some ({ sg with metadata := dictInsert sg.metadata k v }),
       .DEFINITION, lc, part⟩ ∧
    line.data.dropWhile pyIsSpace = k.data ++ ':' :: ' ' :: v.data ∧
    containsCS v.data = false := by
  have hsplit : splitLastCS (line.data.dropWhile pyIsSpace) =
      some (k.data, v.data) := by
    unfold parse_metadata at h
    cases hs : splitLastCS (line.data.dropWhile pyIsSpace) with
    | none => rw [hs] at h; simp at h
    | some p =>
      rw [hs] at h
      obtain ⟨a, b⟩ := p
      simp at h
      obtain ⟨hk, hv⟩ := h
      subst hk hv
      rfl
  obtain ⟨he, hc⟩ := splitLastCS_some _ k.data v.data hsplit
  have hne : ¬ pyStrip line = "" := by
    intro hblank
    rw [pyStrip_empty_dropWhile line hblank] at hsplit
    simp [splitLastCS] at hsplit
  refine ⟨?_, he, hc⟩
  simp [parse_line, hne, h]

/-- Witness for C3 at the concrete DEFINITION line `" key: val"`. -/
theorem C3_witness :
    parse_line ⟨some ⟨"T", [], []⟩, .DEFINITION, [], ⟨"", []⟩⟩ " key: val" =
      ⟨some ⟨"T", [("key", "val")], []⟩, .DEFINITION, [], ⟨"", []⟩⟩ ∧
    (" key: val" : String).data.dropWhile pyIsSpace =
      ("key" : String).data ++ ':' :: ' ' :: ("val" : String).data ∧
    containsCS ("val" : String).data = false :=
  C3_claim ⟨"T", [], []⟩ [] ⟨"", []⟩ " key: val" "key" "val" (by decide)

/-- Invariant of the `parse_chords` character loop: positions of emitted
chords are strictly ascending, chord names are non-empty, and each name is
exactly the text of the original line starting at its recorded position. -/
theorem parseChordsAux_spec (full : List Char) :
    ∀ (cs : List Char) (pos start : Nat) (chord : List Char)
      (chords : List SongChord),
      full.drop pos = cs →
      List.Chain' (fun a b => a.pos < b.pos) chords →
      (∀ sc ∈ chords, sc.pos < (if chord = [] then pos else start)) →
      (chord ≠ [] → full.drop start = chord ++ cs ∧ start + chord.length = pos) →
      (∀ sc ∈ chords, sc.name.data ≠ [] ∧
        (full.drop sc.pos).take sc.name.data.length = sc.name.data) →
      List.Chain' (fun a b => a.pos < b.pos)
        (parseChordsAux cs pos start chord chords) ∧
      ∀ sc ∈ parseChordsAux cs pos start chord chords,
        sc.name.data ≠ [] ∧
        (full.drop sc.pos).take sc.name.data.length = sc.name.data := by
  intro cs
  induction cs with
  | nil =>
    intro pos start chord chords h1 h2 h3 h4 h5
    by_cases hch : chord = []
    · subst hch
      simpa [parseChordsAux] using ⟨h2, h5⟩
    · obtain ⟨hd, -⟩ := h4 hch
      rw [List.append_nil] at hd
      have hres : parseChordsAux [] pos start chord chords =
          chords ++ [⟨String.mk chord, start⟩] := by
        simp [parseChordsAux, hch]
      rw [hres]
      constructor
      · rw [List.chain'_append]
        refine ⟨h2, List.chain'_singleton _, ?_⟩
        intro x hx y hy
        simp at hy
        subst hy
        have hxm : x ∈ chords := List.mem_of_mem_getLast? hx
        have := h3 x hxm
        simpa [hch] using this
      · intro sc hsc
        rcases List.mem_append.1 hsc with h' | h'
        · exact h5 sc h'
        · simp at h'
          subst h'
          refine ⟨hch, ?_⟩
          show (full.drop start).take chord.length = chord
          rw [hd, List.take_length]
  | cons c rest ih =>
    intro pos start chord chords h1 h2 h3 h4 h5
    have h1' : full.drop (pos + 1) = rest := by
      have hdd : full.drop (pos + 1) = (full.drop pos).tail := by
        rw [← List.drop_one, List.drop_drop, Nat.add_comm]
      rw [hdd, h1]
      rfl
    by_cases hsp : c = ' '
    · subst hsp
      by_cases hch : chord = []
      · subst hch
        have hres : parseChordsAux (' ' :: rest) pos start [] chords =
            parseChordsAux rest (pos + 1) start [] chords := by
          simp [parseChordsAux]
        rw [hres]
        refine ih (pos + 1) start [] chords h1' h2 ?_ (by intro hc; exact absurd rfl hc) h5
        intro sc hsc
        have := h3 sc hsc
        simp at this ⊢
        omega
      · obtain ⟨hd, hlen⟩ := h4 hch
        have hpos : 0 < chord.length := List.length_pos.2 hch
        have hres : parseChordsAux (' ' :: rest) pos start chord chords =
            parseChordsAux rest (pos + 1) start []
              (chords ++ [⟨String.mk chord, start⟩]) := by
          simp [parseChordsAux, hch]
        rw [hres]
        have hbound : ∀ sc ∈ chords, sc.pos < start := by
          intro sc hsc
          simpa [hch] using h3 sc hsc
        refine ih (pos + 1) start []
          (chords ++ [⟨String.mk chord, start⟩]) h1' ?_ ?_
          (by intro hc; exact absurd rfl hc) ?_
        · rw [List.chain'_append]
          refine ⟨h2, List.chain'_singleton _, ?_⟩
          intro x hx y hy
          simp at hy
          subst hy
          exact hbound x (List.mem_of_mem_getLast? hx)
        · intro sc hsc
          rcases List.mem_append.1 hsc with h' | h'
          · have := hbound sc h'
            simp
            omega
          · simp at h'
            subst h'
            simp
            omega
        · intro sc hsc
          rcases List.mem_append.1 hsc with h' | h'
          · exact h5 sc h'
          · simp at h'
            subst h'
            refine ⟨hch, ?_⟩
            show (full.drop start).take chord.length = chord
            rw [hd]
            exact List.take_left' rfl
    · by_cases hch : chord = []
      · subst hch
        have hres : parseChordsAux (c :: rest) pos start [] chords =
            parseChordsAux rest (pos + 1) pos [c] chords := by
          simp [parseChordsAux, hsp]
        rw [hres]
        refine ih (pos + 1) pos [c] chords h1'
          h2 ?_ ?_ h5
        · intro sc hsc
          simpa using h3 sc hsc
        · intro _
          constructor
          · rw [h1]; rfl
          · rfl
      · obtain ⟨hd, hlen⟩ := h4 hch
        have hres : parseChordsAux (c :: rest) pos start chord chords =
            parseChordsAux rest (pos + 1) start (chord ++ [c]) chords := by
          simp [parseChordsAux, hsp, hch]
        rw [hres]
        refine ih (pos + 1) start (chord ++ [c]) chords h1' h2 ?_ ?_ h5
        · intro sc hsc
          have := h3 sc hsc
          simpa [hch] using this
        · intro _
          constructor
          · rw [hd, List.append_assoc]
            rfl
          · simp
            omega

/-- C7: `parse_chords` splits on the ASCII space character, skips runs of
spaces without emitting empty tokens, and records the absolute offset of
the first character of each token: `"C    G"` tokenizes to `C` at 0 and `G` at
5, and for every line the produced positions are strictly ascending, every
name is non-empty, and every name reads back verbatim from the original
line at its recorded position. -/
theorem C7_claim :
    parse_chords "C    G" = [⟨"C", 0⟩, ⟨"G", 5⟩] ∧
    ∀ line : String,
      List.Chain' (fun a b => a.pos < b.pos) (parse_chords line) ∧
      (parse_chords line).all
        (fun sc => !(sc.name == "") &&
          ((line.data.drop sc.pos).take sc.name.data.length ==
            sc.name.data)) = true := by
  refine ⟨by decide, ?_⟩
  intro line
  have hspec := parseChordsAux_spec line.data line.data 0 0 [] []
    (by simp) (List.chain'_nil) (by simp) (by intro hc; exact absurd rfl hc)
    (by simp)
  refine ⟨hspec.1, ?_⟩
  rw [List.all_eq_true]
  intro sc hsc
  obtain ⟨hn, hs⟩ := hspec.2 sc hsc
  have hne : sc.name ≠ "" := by
    intro hcon
    rw [hcon] at hn
    exact hn rfl
  simp [hne, hs]
  rw [show sc.name.length = sc.name.data.length from rfl]
  exact hs

/-- In a descending chain, every later element is bounded by the head. -/
theorem chain_desc_le (c : SongChord) (rest : List SongChord)
    (h : List.Chain' (fun a b => b.pos ≤ a.pos) (c :: rest)) :
    ∀ d ∈ rest, d.pos ≤ c.pos := by
  induction rest generalizing c with
  | nil => intro d hd; simp at hd
  | cons d ds ih =>
    intro x hx
    rcases List.mem_cons.1 hx with h' | h'
    · subst h'; exact (List.chain'_cons.1 h).1
    · exact le_trans (ih d (List.chain'_cons.1 h).2 x h') (List.chain'_cons.1 h).1

/-- The head of an insertion is the inserted element or the old head. -/
theorem sortDescInsert_head (c : SongChord) (l : List SongChord) :
    (sortDescInsert c l).head? = some c ∨ (sortDescInsert c l).head? = l.head? := by
  cases l with
  | nil => left; rfl
  | cons d ds =>
    by_cases h : d.pos ≥ c.pos
    · right; simp [sortDescInsert, h]
    · left; simp [sortDescInsert, h]

/-- `sortDescInsert` preserves sortedness by descending position. -/
theorem sortDescInsert_chain (c : SongChord) (l : List SongChord)
    (h : List.Chain' (fun a b => b.pos ≤ a.pos) l) :
    List.Chain' (fun a b => b.pos ≤ a.pos) (sortDescInsert c l) := by
  induction l with
  | nil => simp [sortDescInsert]
  | cons d ds ih =>
    by_cases hpos : d.pos ≥ c.pos
    · rw [show sortDescInsert c (d :: ds) = d :: sortDescInsert c ds from by
        simp [sortDescInsert, hpos]]
      rw [List.chain'_cons']
      refine ⟨?_, ih h.tail⟩
      intro y hy
      rcases sortDescInsert_head c ds with hh | hh
      · rw [hh] at hy; simp at hy; subst hy; exact hpos
      · rw [hh] at hy
        cases ds with
        | nil => simp at hy
        | cons e es =>
          simp at hy
          subst hy
          exact (List.chain'_cons.1 h).1
    · rw [show sortDescInsert c (d :: ds) = c :: d :: ds from by
        simp [sortDescInsert, hpos]]
      rw [List.chain'_cons]
      exact ⟨by omega, h⟩

/-- The chord list sorted by `sortDescChords` is descending by position. -/
theorem sortDescChords_chain (cs : List SongChord) :
    List.Chain' (fun a b => b.pos ≤ a.pos) (sortDescChords cs) := by
  have haux : ∀ (cs' : List SongChord) (acc : List SongChord),
      List.Chain' (fun a b => b.pos ≤ a.pos) acc →
      List.Chain' (fun a b => b.pos ≤ a.pos)
        (List.foldl (fun acc c => sortDescInsert c acc) acc cs') := by
    intro cs'
    induction cs' with
    | nil => exact fun acc h => h
    | cons c cs'' ih =>
      intro acc hacc
      exact ih _ (sortDescInsert_chain c acc hacc)
  exact haux cs [] List.chain'_nil

/-- Marker insertions at positions inside a prefix never touch the part of
the string beyond that prefix. -/
theorem foldl_pyInsertAt_append (ds : List SongChord) :
    ∀ (a b : List Char), (∀ d ∈ ds, d.pos ≤ a.length) →
      List.foldl pyInsertAt (a ++ b) ds = List.foldl pyInsertAt a ds ++ b := by
  induction ds with
  | nil => intro a b _; rfl
  | cons d ds' ih =>
    intro a b hb
    have hd : d.pos ≤ a.length := hb d (by simp)
    have hins : pyInsertAt (a ++ b) d = pyInsertAt a d ++ b := by
      unfold pyInsertAt
      rw [List.take_append_of_le_length hd, List.drop_append_of_le_length hd]
      simp [List.append_assoc]
    rw [List.foldl_cons, List.foldl_cons, hins]
    refine ih (pyInsertAt a d) b ?_
    intro x hx
    have hxa := hb x (by simp [hx])
    have hlen : a.length ≤ (pyInsertAt a d).length := by
      simp only [pyInsertAt, List.length_append, List.length_take,
        List.length_drop]
      rw [Nat.min_eq_left hd]
      omega
    omega

/-- Splicing a descending chord list into a string whose length covers the
rightmost position equals the position-faithful overlay `overlayDesc`:
each marker lands at the position of its chord in the original string. -/
theorem foldl_pyInsertAt_overlay (ds : List SongChord) :
    ∀ l : List Char, List.Chain' (fun a b => b.pos ≤ a.pos) ds →
      (∀ d ∈ ds, d.pos ≤ l.length) →
      List.foldl pyInsertAt l ds = overlayDesc l ds := by
  induction ds with
  | nil => intro l _ _; rfl
  | cons d ds' ih =>
    intro l hchain hlen
    have hd : d.pos ≤ l.length := hlen d (by simp)
    have hle : ∀ x ∈ ds', x.pos ≤ d.pos := chain_desc_le d ds' hchain
    have htl : (l.take d.pos).length = d.pos := by
      rw [List.length_take]
      exact Nat.min_eq_left hd
    rw [List.foldl_cons]
    rw [show pyInsertAt l d = l.take d.pos ++ (chordMarker d ++ l.drop d.pos)
      from by simp [pyInsertAt, List.append_assoc]]
    rw [foldl_pyInsertAt_append ds' (l.take d.pos) _
      (by intro x hx; rw [htl]; exact hle x hx)]
    rw [ih (l.take d.pos) hchain.tail
      (by intro x hx; rw [htl]; exact hle x hx)]
    rw [overlayDesc, List.append_assoc]

/-- C8: with no chords, `to_latex` is the text plus a newline; with chords,
they are processed in descending position order — equivalently, each
marker `\[name]` lands at the position of its chord (`overlayDesc`) — over the
text padded with spaces up to the rightmost position when the text is too
short, and the result is wrapped in `\nolyrics{...}` exactly when the text
is empty. -/
theorem C8_claim :
    (∀ t : String, SongLine.to_latex ⟨t, []⟩ = t ++ "\n") ∧
    (∀ (t : String) (cs : List SongChord) (c : SongChord)
       (rest : List SongChord), sortDescChords cs = c :: rest →
      SongLine.to_latex ⟨t, cs⟩ =
        (if t = "" then
          "\\nolyrics\x7b" ++ String.mk (overlayDesc
            (t.data ++ List.replicate (c.pos - t.data.length) ' ')
            (c :: rest)) ++ "\x7d\n"
         else
          String.mk (overlayDesc
            (t.data ++ List.replicate (c.pos - t.data.length) ' ')
            (c :: rest)) ++ "\n")) := by
  constructor
  · intro t; rfl
  · intro t cs c rest hsort
    have hchain : List.Chain' (fun a b => b.pos ≤ a.pos) (c :: rest) := by
      rw [← hsort]; exact sortDescChords_chain cs
    have hpadlen : c.pos ≤
        (t.data ++ List.replicate (c.pos - t.data.length) ' ').length := by
      simp only [List.length_append, List.length_replicate]
      omega
    have hall : ∀ d ∈ c :: rest, d.pos ≤
        (t.data ++ List.replicate (c.pos - t.data.length) ' ').length := by
      intro d hd
      rcases List.mem_cons.1 hd with h' | h'
      · subst h'; exact hpadlen
      · exact le_trans (chain_desc_le c rest hchain d h') hpadlen
    show (match sortDescChords cs with
      | [] => t ++ "\n"
      | c :: cs =>
        let padded := t.data ++ List.replicate (c.pos - t.data.length) ' '
        let out := List.foldl pyInsertAt padded (c :: cs)
        if t = "" then "\\nolyrics\x7b" ++ String.mk out ++ "\x7d\n"
        else String.mk out ++ "\n") = _
    rw [hsort]
    simp only []
    rw [foldl_pyInsertAt_overlay (c :: rest) _ hchain hall]

/-- Witness for C8: overlaying `C` at 0 and `G` at 8 onto
`"Hello world"`. -/
theorem C8_witness :
    SongLine.to_latex ⟨"Hello world", [⟨"C", 0⟩, ⟨"G", 8⟩]⟩ =
      "\\[C]Hello wo\\[G]rld\n" := by
  rw [C8_claim.2 "Hello world" [⟨"C", 0⟩, ⟨"G", 8⟩] ⟨"G", 8⟩ [⟨"C", 0⟩]
    (by decide)]
  decide

/-- C5 (amended): in BODY with an empty current part, a line is taken as a
part name exactly when, after the maximal leading-whitespace run, it ends
with a colon as its **final character** (the code pattern `^\s*(.*):$`
permits no trailing whitespace after the colon); the captured text before
that colon becomes the name of the part, and the line contributes no
lyric or chord content. -/
theorem C5_claim :
    (∀ (part : SongPart) (lc : List SongChord) (line : String) (nm : String),
      part.is_empty = true → partName line = some nm →
      parse_part part lc line = ({ part with name := nm }, lc)) ∧
    (∀ (line : String) (nm : String),
      partName line = some nm ↔
        line.data.dropWhile pyIsSpace = nm.data ++ [':']) := by
  constructor
  · intro part lc line nm he hn
    simp [parse_part, he, hn]
  · intro line nm
    constructor
    · intro h
      unfold partName at h
      by_cases hg : (line.data.dropWhile pyIsSpace).getLast? = some ':'
      · rw [if_pos hg] at h
        have hne : line.data.dropWhile pyIsSpace ≠ [] := by
          intro hcon
          rw [hcon] at hg
          simp at hg
        have hlast : (line.data.dropWhile pyIsSpace).getLast hne = ':' := by
          rw [List.getLast?_eq_getLast _ hne] at hg
          exact Option.some.inj hg
        have hnm : nm.data = (line.data.dropWhile pyIsSpace).dropLast := by
          have := Option.some.inj h
          rw [← this]
        rw [hnm, ← hlast]
        exact (List.dropLast_append_getLast hne).symm
      · rw [if_neg hg] at h
        exact absurd h (by simp)
    · intro h
      unfold partName
      rw [h]
      rw [if_pos (List.getLast?_concat nm.data)]
      rw [List.dropLast_concat]

/-- Witness for C5: `"  Verse 1:"` names an empty part `"Verse 1"`. -/
theorem C5_witness :
    parse_part ⟨"", []⟩ [] "  Verse 1:" = (⟨"Verse 1", []⟩, []) ∧
    partName "  Verse 1:" = some "Verse 1" :=
  ⟨C5_claim.1 ⟨"", []⟩ [] "  Verse 1:" "Verse 1" (by decide) (by decide),
   (C5_claim.2 "  Verse 1:" "Verse 1").2 (by decide)⟩

end Plainsong
